import Mathlib

/-!
Shallow embedding of the Xbox 360 minidump utilities
(`src/minidump_extractor.py`, `analyze_coverage.py`, `compare_dumps.py`,
`main.py`) and proofs about the embedded definitions.

Modelling conventions:
* a dump file is a total byte map `Nat → Nat` (file reads model complete,
  in-bounds reads; Python byte values are `< 256`, the embedding does not
  need that bound for any theorem below);
* the module buffer (`bytearray(mod["size"])`) is a `List Nat`, so that its
  length is part of the model;
* Python's stable `list.sort` is modelled by a stable insertion sort;
* fallible parsing (`raise` / `try`-`except`) is modelled with
  `Except` / `Option`.
-/

set_option maxRecDepth 100000

namespace FalloutUtils

/-- A memory range parsed from the memory64 stream
(`_parse_memory_ranges`): start VA, size, and computed file offset. -/
structure MemRange where
  va : Nat
  size : Nat
  file_offset : Nat
deriving Repr, DecidableEq

/-- A module record parsed from the module-list stream: base VA and size
(the other fields play no role in the claims). -/
structure ModuleDesc where
  base : Nat
  size : Nat
deriving Repr, DecidableEq

/-- Result record for a successfully extracted module
(`_extract_module_from_ranges` return value, content-relevant fields). -/
structure ModuleResult where
  data : List Nat
  bytes_filled : Nat
  machine : Nat
deriving Repr, DecidableEq

/-- Line 167 of `minidump_extractor.py`: the selection condition
`(r_start >= mod_start and r_start < mod_end) or
 (r_end > mod_start and r_end <= mod_end)`. -/
def rangeSelected (ms me : Nat) (r : MemRange) : Bool :=
  (decide (ms ≤ r.va) && decide (r.va < me)) ||
    (decide (ms < r.va + r.size) && decide (r.va + r.size ≤ me))

/-- Stable insertion of a range into a list sorted by `va`:
the inserted element goes before later elements with an equal key,
modelling Python's stable `sort(key=lambda x: x["va"])`. -/
def insertByVa (r : MemRange) : List MemRange → List MemRange
  | [] => [r]
  | x :: xs => if x.va < r.va then x :: insertByVa r xs else r :: x :: xs

/-- Stable sort by `va` (line 175: `module_ranges.sort(key=...)`). -/
def sortByVa : List MemRange → List MemRange
  | [] => []
  | x :: xs => insertByVa x (sortByVa xs)

/-- Python slice assignment `buf[off : off + len(data)] = data`
(in the only use below, `off + data.length ≤ buf.length` always holds,
so the length of the buffer is preserved). -/
def writeSlice (buf : List Nat) (off : Nat) (data : List Nat) : List Nat :=
  buf.take off ++ data ++ buf.drop (off + data.length)

/-- One iteration of the fill loop (lines 182–192): state is
`(module_data, bytes_filled)`.  Ranges whose start VA lies outside
`[mod.base, mod.base + mod.size)` are skipped (`continue`); otherwise
`copy_size = min(len(data), mod.size - offset_in_module)` bytes read at
`r.file_offset` are written at `offset_in_module`. -/
def fillStep (dump : Nat → Nat) (mod : ModuleDesc)
    (st : List Nat × Nat) (r : MemRange) : List Nat × Nat :=
  let off : Int := (r.va : Int) - (mod.base : Int)
  if off < 0 ∨ (mod.size : Int) ≤ off then st
  else
    let offN : Nat := off.toNat
    let data : List Nat := (List.range r.size).map (fun i => dump (r.file_offset + i))
    let copy : Nat := min data.length (mod.size - offN)
    (writeSlice st.1 offN (data.take copy), st.2 + copy)

/-- The selected ranges for a module (lines 161–168). -/
def selectedRanges (mod : ModuleDesc) (ranges : List MemRange) : List MemRange :=
  ranges.filter (rangeSelected mod.base (mod.base + mod.size))

/-- The fill phase of `_extract_module_from_ranges` (lines 161–192):
filter, sort by VA, then fold the fill loop over a zero-initialised
buffer of length `mod.size`. -/
def extractFill (dump : Nat → Nat) (mod : ModuleDesc)
    (ranges : List MemRange) : List Nat × Nat :=
  (sortByVa (selectedRanges mod ranges)).foldl (fillStep dump mod)
    (List.replicate mod.size 0, 0)

/-- Little-endian `u32` read from the buffer (`struct.unpack("<I", ...)`),
used only at in-bounds offsets. -/
def readU32 (buf : List Nat) (off : Nat) : Nat :=
  buf.getD off 0 + 256 * buf.getD (off + 1) 0 +
    65536 * buf.getD (off + 2) 0 + 16777216 * buf.getD (off + 3) 0

/-- PE validation (lines 194–209): `MZ` at bytes 0–1, then `pe_offset`
read at 0x3C (a read that raises, and hence rejects the module, when the
buffer is shorter than 0x40 bytes), rejected when
`pe_offset >= len - 4`, then `PE\0\0` at `pe_offset`.  Returns the
accepted `pe_offset`. -/
def validatePE (buf : List Nat) : Option Nat :=
  if buf.getD 0 0 = 77 ∧ buf.getD 1 0 = 90 then
    if 64 ≤ buf.length then
      let pe := readU32 buf 60
      if pe ≥ buf.length - 4 then none
      else if buf.getD pe 0 = 80 ∧ buf.getD (pe + 1) 0 = 69 ∧
          buf.getD (pe + 2) 0 = 0 ∧ buf.getD (pe + 3) 0 = 0 then some pe
      else none
    else none
  else none

/-- Embedding of `_extract_module_from_ranges` (lines 152–238): select and sort the
ranges, fill the buffer, validate the PE header, read the machine word
(a read past the buffer raises and so drops the module).  `none` models
both an explicit `return None` and a raised-and-caught exception. -/
def extractModuleFromRanges (dump : Nat → Nat) (mod : ModuleDesc)
    (ranges : List MemRange) : Option ModuleResult :=
  if (selectedRanges mod ranges).isEmpty then none
  else
    match validatePE (extractFill dump mod ranges).1 with
    | none => none
    | some pe =>
      if pe + 6 ≤ (extractFill dump mod ranges).1.length then
        some ⟨(extractFill dump mod ranges).1, (extractFill dump mod ranges).2,
          (extractFill dump mod ranges).1.getD (pe + 4) 0 +
            256 * (extractFill dump mod ranges).1.getD (pe + 5) 0⟩
      else none

/-- File-offset assignment of `_parse_memory_ranges` (lines 99–105):
the running offset starts at `base_rva` and advances by each range's
size. -/
def assignOffsets (base : Nat) : List (Nat × Nat) → List MemRange
  | [] => []
  | (va, sz) :: rest => ⟨va, sz, base⟩ :: assignOffsets (base + sz) rest

/-- The number of bytes the fill loop copies for one range: zero when the
range's start VA is outside the module window, else
`min(range.size, module_end - range.va)`. -/
def contrib (mod : ModuleDesc) (r : MemRange) : Nat :=
  if mod.base ≤ r.va ∧ r.va < mod.base + mod.size then
    min r.size (mod.base + mod.size - r.va)
  else 0

/-- The fill step for range `r` writes buffer index `j`. -/
def coversIdx (mod : ModuleDesc) (r : MemRange) (j : Nat) : Prop :=
  mod.base ≤ r.va ∧ r.va < mod.base + mod.size ∧
    r.va - mod.base ≤ j ∧ j < (r.va - mod.base) + contrib mod r

instance (mod : ModuleDesc) (r : MemRange) (j : Nat) :
    Decidable (coversIdx mod r j) := by
  unfold coversIdx; infer_instance

theorem writeSlice_length (buf : List Nat) (off : Nat) (data : List Nat)
    (h : off + data.length ≤ buf.length) :
    (writeSlice buf off data).length = buf.length := by
  simp only [writeSlice, List.length_append, List.length_take, List.length_drop]
  omega

theorem writeSlice_getD_left (buf : List Nat) (off : Nat) (data : List Nat)
    (j : Nat) (d : Nat) (hj : j < off) (hoff : off ≤ buf.length) :
    (writeSlice buf off data).getD j d = buf.getD j d := by
  have hlt : j < (buf.take off).length := by
    simp only [List.length_take]; omega
  simp only [writeSlice, List.getD_eq_getElem?_getD, List.append_assoc]
  rw [List.getElem?_append_left hlt, List.getElem?_take, if_pos hj]

theorem writeSlice_getD_mid (buf : List Nat) (off : Nat) (data : List Nat)
    (j : Nat) (d : Nat) (hj : j < data.length) (hoff : off ≤ buf.length) :
    (writeSlice buf off data).getD (off + j) d = data.getD j d := by
  have htake : (buf.take off).length = off := by
    simp only [List.length_take]; omega
  simp only [writeSlice, List.getD_eq_getElem?_getD, List.append_assoc]
  rw [List.getElem?_append_right (by omega), htake]
  have h1 : off + j - off = j := by omega
  rw [h1, List.getElem?_append_left hj]

theorem writeSlice_getD_right (buf : List Nat) (off : Nat) (data : List Nat)
    (j : Nat) (d : Nat) (hj : off + data.length ≤ j) (hoff : off ≤ buf.length) :
    (writeSlice buf off data).getD j d = buf.getD j d := by
  have htake : (buf.take off).length = off := by
    simp only [List.length_take]; omega
  simp only [writeSlice, List.getD_eq_getElem?_getD, List.append_assoc]
  rw [List.getElem?_append_right (by omega)]
  rw [htake]
  rw [List.getElem?_append_right (by omega)]
  rw [List.getElem?_drop]
  have hidx : off + data.length + (j - off - data.length) = j := by omega
  rw [hidx]

theorem fillStep_skip (dump : Nat → Nat) (mod : ModuleDesc)
    (st : List Nat × Nat) (r : MemRange)
    (h : r.va < mod.base ∨ mod.base + mod.size ≤ r.va) :
    fillStep dump mod st r = st := by
  simp only [fillStep]
  rw [if_pos (show (r.va : Int) - (mod.base : Int) < 0 ∨
    (mod.size : Int) ≤ (r.va : Int) - (mod.base : Int) by omega)]

theorem fillStep_write (dump : Nat → Nat) (mod : ModuleDesc)
    (st : List Nat × Nat) (r : MemRange)
    (h1 : mod.base ≤ r.va) (h2 : r.va < mod.base + mod.size) :
    fillStep dump mod st r =
      (writeSlice st.1 (r.va - mod.base)
        (((List.range r.size).map (fun i => dump (r.file_offset + i))).take
          (min r.size (mod.base + mod.size - r.va))),
       st.2 + min r.size (mod.base + mod.size - r.va)) := by
  simp only [fillStep]
  rw [if_neg (show ¬((r.va : Int) - (mod.base : Int) < 0 ∨
    (mod.size : Int) ≤ (r.va : Int) - (mod.base : Int)) by omega)]
  have htn : ((r.va : Int) - (mod.base : Int)).toNat = r.va - mod.base := by
    omega
  simp only [htn, List.length_map, List.length_range]
  have hmin : min r.size (mod.size - (r.va - mod.base)) =
      min r.size (mod.base + mod.size - r.va) := by omega
  rw [hmin]

theorem fillStep_snd (dump : Nat → Nat) (mod : ModuleDesc)
    (st : List Nat × Nat) (r : MemRange) :
    (fillStep dump mod st r).2 = st.2 + contrib mod r := by
  by_cases h : mod.base ≤ r.va ∧ r.va < mod.base + mod.size
  · rw [fillStep_write dump mod st r h.1 h.2]
    simp [contrib, h]
  · rw [fillStep_skip dump mod st r (by omega)]
    simp [contrib, h]

theorem fillStep_length (dump : Nat → Nat) (mod : ModuleDesc)
    (st : List Nat × Nat) (r : MemRange) (hlen : st.1.length = mod.size) :
    (fillStep dump mod st r).1.length = mod.size := by
  by_cases h : mod.base ≤ r.va ∧ r.va < mod.base + mod.size
  · rw [fillStep_write dump mod st r h.1 h.2]
    rw [writeSlice_length]
    · exact hlen
    · simp only [List.length_take, List.length_map, List.length_range, hlen]
      omega
  · rw [fillStep_skip dump mod st r (by omega)]
    exact hlen

theorem fillStep_getD_notcover (dump : Nat → Nat) (mod : ModuleDesc)
    (st : List Nat × Nat) (r : MemRange) (j : Nat)
    (hlen : st.1.length = mod.size) (h : ¬ coversIdx mod r j) :
    (fillStep dump mod st r).1.getD j 0 = st.1.getD j 0 := by
  by_cases hw : mod.base ≤ r.va ∧ r.va < mod.base + mod.size
  · rw [fillStep_write dump mod st r hw.1 hw.2]
    have hc : contrib mod r = min r.size (mod.base + mod.size - r.va) := by
      simp [contrib, hw]
    have htl : (((List.range r.size).map (fun i => dump (r.file_offset + i))).take
        (min r.size (mod.base + mod.size - r.va))).length =
        min r.size (mod.base + mod.size - r.va) := by
      simp only [List.length_take, List.length_map, List.length_range]
      omega
    rcases Nat.lt_or_ge j (r.va - mod.base) with hj | hj
    · exact writeSlice_getD_left _ _ _ _ _ hj (by omega)
    · have hj2 : (r.va - mod.base) + min r.size (mod.base + mod.size - r.va) ≤ j := by
        unfold coversIdx at h
        rw [hc] at h
        omega
      exact writeSlice_getD_right _ _ _ _ _ (by rw [htl]; omega) (by omega)
  · rw [fillStep_skip dump mod st r (by omega)]

theorem fillStep_getD_cover (dump : Nat → Nat) (mod : ModuleDesc)
    (st : List Nat × Nat) (r : MemRange) (j : Nat)
    (hlen : st.1.length = mod.size) (h : coversIdx mod r j) :
    (fillStep dump mod st r).1.getD j 0 =
      dump (r.file_offset + (j - (r.va - mod.base))) := by
  obtain ⟨h1, h2, h3, h4⟩ := h
  have hc : contrib mod r = min r.size (mod.base + mod.size - r.va) := by
    simp [contrib, h1, h2]
  rw [hc] at h4
  rw [fillStep_write dump mod st r h1 h2]
  have hjoff : j = (r.va - mod.base) + (j - (r.va - mod.base)) := by omega
  rw [hjoff]
  rw [writeSlice_getD_mid _ _ _ _ _
    (by simp only [List.length_take, List.length_map, List.length_range]; omega)
    (by omega)]
  have hk : j - (r.va - mod.base) < min r.size (mod.base + mod.size - r.va) := by
    omega
  simp only [List.getD_eq_getElem?_getD]
  rw [List.getElem?_take, if_pos hk, List.getElem?_map,
    List.getElem?_range (by omega)]
  simp only [Option.map_some', Option.getD_some]
  congr 1
  omega

theorem foldl_fill_length (dump : Nat → Nat) (mod : ModuleDesc)
    (l : List MemRange) (st : List Nat × Nat) (hlen : st.1.length = mod.size) :
    (l.foldl (fillStep dump mod) st).1.length = mod.size := by
  induction l generalizing st with
  | nil => exact hlen
  | cons r rest ih =>
    exact ih _ (fillStep_length dump mod st r hlen)

theorem foldl_fill_snd (dump : Nat → Nat) (mod : ModuleDesc)
    (l : List MemRange) (st : List Nat × Nat) :
    (l.foldl (fillStep dump mod) st).2 = st.2 + (l.map (contrib mod)).sum := by
  induction l generalizing st with
  | nil => simp
  | cons r rest ih =>
    simp only [List.foldl_cons, List.map_cons, List.sum_cons]
    rw [ih, fillStep_snd]
    omega

theorem foldl_fill_getD_nocover (dump : Nat → Nat) (mod : ModuleDesc)
    (l : List MemRange) (st : List Nat × Nat) (j : Nat)
    (hlen : st.1.length = mod.size)
    (h : ∀ r ∈ l, ¬ coversIdx mod r j) :
    (l.foldl (fillStep dump mod) st).1.getD j 0 = st.1.getD j 0 := by
  induction l generalizing st with
  | nil => rfl
  | cons r rest ih =>
    simp only [List.foldl_cons]
    rw [ih _ (fillStep_length dump mod st r hlen)
      (fun r' hr' => h r' (List.mem_cons_of_mem _ hr'))]
    exact fillStep_getD_notcover dump mod st r j hlen (h r (List.mem_cons_self _ _))

theorem foldl_fill_getD_last (dump : Nat → Nat) (mod : ModuleDesc)
    (l1 l2 : List MemRange) (r : MemRange) (st : List Nat × Nat) (j : Nat)
    (hlen : st.1.length = mod.size)
    (hcov : coversIdx mod r j)
    (hafter : ∀ r' ∈ l2, ¬ coversIdx mod r' j) :
    ((l1 ++ r :: l2).foldl (fillStep dump mod) st).1.getD j 0 =
      dump (r.file_offset + (j - (r.va - mod.base))) := by
  rw [List.foldl_append, List.foldl_cons]
  have hlen1 : (l1.foldl (fillStep dump mod) st).1.length = mod.size :=
    foldl_fill_length dump mod l1 st hlen
  rw [foldl_fill_getD_nocover dump mod l2 _ j
    (fillStep_length dump mod _ r hlen1) hafter]
  exact fillStep_getD_cover dump mod _ r j hlen1 hcov

theorem insertByVa_perm (r : MemRange) (l : List MemRange) :
    List.Perm (insertByVa r l) (r :: l) := by
  induction l with
  | nil => exact List.Perm.refl _
  | cons x xs ih =>
    simp only [insertByVa]
    by_cases h : x.va < r.va
    · rw [if_pos h]
      exact ((ih.cons x).trans (List.Perm.swap r x xs))
    · rw [if_neg h]

theorem sortByVa_perm (l : List MemRange) : List.Perm (sortByVa l) l := by
  induction l with
  | nil => exact List.Perm.refl _
  | cons x xs ih =>
    exact (insertByVa_perm x (sortByVa xs)).trans (ih.cons x)

theorem mem_sortByVa (r : MemRange) (l : List MemRange) :
    r ∈ sortByVa l ↔ r ∈ l :=
  (sortByVa_perm l).mem_iff

theorem extractFill_length (dump : Nat → Nat) (mod : ModuleDesc)
    (ranges : List MemRange) : (extractFill dump mod ranges).1.length = mod.size :=
  foldl_fill_length dump mod _ _ (by simp)

theorem extractModule_inv (dump : Nat → Nat) (mod : ModuleDesc)
    (ranges : List MemRange) (m : ModuleResult)
    (hm : extractModuleFromRanges dump mod ranges = some m) :
    m.data = (extractFill dump mod ranges).1 ∧
    m.bytes_filled = (extractFill dump mod ranges).2 ∧
    (validatePE (extractFill dump mod ranges).1).isSome = true := by
  unfold extractModuleFromRanges at hm
  split at hm
  · exact absurd hm (by simp)
  · split at hm
    · exact absurd hm (by simp)
    · rename_i pe heq
      split at hm
      · obtain rfl := Option.some.inj hm
        exact ⟨rfl, rfl, by rw [heq]; rfl⟩
      · exact absurd hm (by simp)

theorem validatePE_eq_some (buf : List Nat) (pe : Nat) :
    validatePE buf = some pe ↔
      buf.getD 0 0 = 77 ∧ buf.getD 1 0 = 90 ∧ 64 ≤ buf.length ∧
      pe = readU32 buf 60 ∧ readU32 buf 60 + 4 < buf.length ∧
      buf.getD (readU32 buf 60) 0 = 80 ∧ buf.getD (readU32 buf 60 + 1) 0 = 69 ∧
      buf.getD (readU32 buf 60 + 2) 0 = 0 ∧ buf.getD (readU32 buf 60 + 3) 0 = 0 := by
  unfold validatePE
  by_cases h1 : buf.getD 0 0 = 77 ∧ buf.getD 1 0 = 90
  · rw [if_pos h1]
    by_cases h2 : 64 ≤ buf.length
    · rw [if_pos h2]
      by_cases h3 : readU32 buf 60 ≥ buf.length - 4
      · rw [if_pos h3]
        simp only [reduceCtorEq, false_iff]
        intro hc
        obtain ⟨-, -, hlen, -, hub, -⟩ := hc
        omega
      · rw [if_neg h3]
        by_cases h4 : buf.getD (readU32 buf 60) 0 = 80 ∧
            buf.getD (readU32 buf 60 + 1) 0 = 69 ∧
            buf.getD (readU32 buf 60 + 2) 0 = 0 ∧ buf.getD (readU32 buf 60 + 3) 0 = 0
        · rw [if_pos h4]
          simp only [Option.some.injEq]
          constructor
          · rintro rfl
            exact ⟨h1.1, h1.2, h2, rfl, by omega, h4.1, h4.2.1, h4.2.2.1, h4.2.2.2⟩
          · rintro ⟨-, -, -, rfl, -, -, -, -, -⟩
            rfl
        · rw [if_neg h4]
          simp only [reduceCtorEq, false_iff]
          intro hc
          exact h4 ⟨hc.2.2.2.2.2.1, hc.2.2.2.2.2.2.1,
            hc.2.2.2.2.2.2.2.1, hc.2.2.2.2.2.2.2.2⟩
    · rw [if_neg h2]
      simp only [reduceCtorEq, false_iff]
      intro hc
      exact h2 hc.2.2.1
  · rw [if_neg h1]
    simp only [reduceCtorEq, false_iff]
    intro hc
    exact h1 ⟨hc.1, hc.2.1⟩

/-- C1 (counterexample): the memory range `va = 90, size = 30` overlaps the
module interval `[100, 110)` in the claim's sense (`r.va < me` and
`r.va + r.size > ms`), yet line 167's condition does not select it, and the
fill loop copies zero bytes from it, where the claim requires
`min(30, 110 − 90) = 20` copied bytes. -/
theorem C1_counterexample :
    (90 < 100 + 10 ∧ 100 < 90 + 30) ∧
    rangeSelected 100 (100 + 10) ⟨90, 30, 0⟩ = false ∧
    (extractFill (fun i => i) ⟨100, 10⟩ [⟨90, 30, 0⟩]).2 = 0 := by
  refine ⟨by decide, by decide, ?_⟩
  rfl

/-- C1 (amended): the reassembler selects exactly the ranges satisfying
line 167's disjunction `(ms ≤ va < me) ∨ (ms < va + size ≤ me)` — not every
overlapping range — and the fill loop skips any selected range whose start
VA lies below the module base (no clipped copy); a selected range with
`va ∈ [ms, me)` contributes `min(size, me − va)` bytes read at
`file_offset` (unshifted) into the buffer at index `va − ms`. -/
theorem C1_selection_and_copy (dump : Nat → Nat) (mod : ModuleDesc)
    (ranges : List MemRange) (st : List Nat × Nat) (r : MemRange) :
    (r ∈ selectedRanges mod ranges ↔ r ∈ ranges ∧
      ((mod.base ≤ r.va ∧ r.va < mod.base + mod.size) ∨
        (mod.base < r.va + r.size ∧ r.va + r.size ≤ mod.base + mod.size))) ∧
    (r.va < mod.base → fillStep dump mod st r = st) ∧
    (mod.base ≤ r.va → r.va < mod.base + mod.size → st.1.length = mod.size →
      (fillStep dump mod st r).2 = st.2 + min r.size (mod.base + mod.size - r.va) ∧
      ∀ i < min r.size (mod.base + mod.size - r.va),
        (fillStep dump mod st r).1.getD (r.va - mod.base + i) 0 =
          dump (r.file_offset + i)) := by
  refine ⟨?_, ?_, ?_⟩
  · simp only [selectedRanges, List.mem_filter, rangeSelected, Bool.or_eq_true,
      Bool.and_eq_true, decide_eq_true_eq]
  · intro h
    exact fillStep_skip dump mod st r (Or.inl h)
  · intro h1 h2 hlen
    have hc : contrib mod r = min r.size (mod.base + mod.size - r.va) := by
      simp [contrib, h1, h2]
    refine ⟨by rw [fillStep_snd, hc], ?_⟩
    intro i hi
    have hcov : coversIdx mod r (r.va - mod.base + i) := by
      refine ⟨h1, h2, by omega, by rw [hc]; omega⟩
    rw [fillStep_getD_cover dump mod st r _ hlen hcov]
    congr 1
    omega

/-- C1 (witness). -/
theorem C1_witness :
    ((⟨100, 4, 7⟩ : MemRange) ∈ selectedRanges ⟨100, 10⟩ [⟨100, 4, 7⟩]) ∧
    (fillStep (fun i => i) ⟨100, 10⟩ (List.replicate 10 0, 0) ⟨100, 4, 7⟩).2 =
      0 + min 4 (100 + 10 - 100) ∧
    (fillStep (fun i => i) ⟨100, 10⟩ (List.replicate 10 0, 0) ⟨100, 4, 7⟩).1.getD
      (100 - 100 + 2) 0 = (fun i => i : Nat → Nat) (7 + 2) := by
  have h := C1_selection_and_copy (fun i => i) ⟨100, 10⟩ [⟨100, 4, 7⟩]
    (List.replicate 10 0, 0) ⟨100, 4, 7⟩
  have h3 := h.2.2 (by decide) (by decide) (by simp)
  exact ⟨h.1.mpr (by simp), h3.1, h3.2 2 (by decide)⟩

/-- C2 (counterexample): two duplicate ranges both cover buffer byte 0; the
first range in stream (and sorted) order reads dump byte 0 (= 0), the second
reads dump byte 10 (= 10).  The claim requires the first write to win, but
the code's second copy overwrites the first: the resulting byte is 10. -/
theorem C2_counterexample :
    coversIdx ⟨0, 4⟩ ⟨0, 2, 0⟩ 0 ∧ coversIdx ⟨0, 4⟩ ⟨0, 2, 10⟩ 0 ∧
    sortByVa (selectedRanges ⟨0, 4⟩ [⟨0, 2, 0⟩, ⟨0, 2, 10⟩]) =
      [⟨0, 2, 0⟩, ⟨0, 2, 10⟩] ∧
    (extractFill (fun i => i) ⟨0, 4⟩ [⟨0, 2, 0⟩, ⟨0, 2, 10⟩]).1.getD 0 0 = 10 ∧
    (fun i => i : Nat → Nat) (0 + 0) = 0 ∧ (10 : Nat) ≠ 0 := by
  exact ⟨by decide, by decide, by decide, by rfl, by rfl, by decide⟩

/-- C2 (amended): within the fill loop, the LAST range, in the stable
VA-sorted order of the selected ranges, that covers a buffer byte determines
that byte (later copies overwrite earlier ones; nothing is skipped). -/
theorem C2_last_write_wins (dump : Nat → Nat) (mod : ModuleDesc)
    (ranges l1 l2 : List MemRange) (r : MemRange) (j : Nat)
    (hsplit : sortByVa (selectedRanges mod ranges) = l1 ++ r :: l2)
    (hcov : coversIdx mod r j)
    (hafter : ∀ r' ∈ l2, ¬ coversIdx mod r' j) :
    (extractFill dump mod ranges).1.getD j 0 =
      dump (r.file_offset + (j - (r.va - mod.base))) := by
  unfold extractFill
  rw [hsplit]
  exact foldl_fill_getD_last dump mod l1 l2 r _ j (by simp) hcov hafter

/-- C2 (witness). -/
theorem C2_witness :
    sortByVa (selectedRanges ⟨0, 4⟩ [⟨0, 2, 0⟩, ⟨0, 2, 10⟩]) =
      [⟨0, 2, 0⟩] ++ ⟨0, 2, 10⟩ :: [] ∧
    coversIdx ⟨0, 4⟩ ⟨0, 2, 10⟩ 1 ∧
    (extractFill (fun i => i + 100) ⟨0, 4⟩ [⟨0, 2, 0⟩, ⟨0, 2, 10⟩]).1.getD 1 0 =
      (fun i => i + 100 : Nat → Nat) (10 + (1 - (0 - 0))) := by
  refine ⟨by decide, by decide, ?_⟩
  exact C2_last_write_wins (fun i => i + 100) ⟨0, 4⟩ [⟨0, 2, 0⟩, ⟨0, 2, 10⟩]
    [⟨0, 2, 0⟩] [] ⟨0, 2, 10⟩ 1 (by decide) (by decide) (by simp)

/-- A concrete dump whose first 72 bytes form a valid PE module image:
`MZ` at 0–1, `pe_offset = 64` stored at 0x3C, and `PE\0\0` at 64–67. -/
def dumpPE : Nat → Nat := fun i =>
  if i = 0 then 77 else if i = 1 then 90 else if i = 60 then 64
  else if i = 64 then 80 else if i = 65 then 69 else 0

/-- The 72-byte module image reconstructed from `dumpPE` when one range
covers the whole module. -/
def fullPE72 : List Nat := (List.range 72).map dumpPE

/-- The 72-byte module image when a single range covers only bytes 0–67. -/
def partPE72 : List Nat := (List.range 68).map dumpPE ++ [0, 0, 0, 0]

/-- The set of buffer indices one range's fill step writes. -/
def writeWindow (mod : ModuleDesc) (r : MemRange) : Finset Nat :=
  Finset.Ico (r.va - mod.base) ((r.va - mod.base) + contrib mod r)

theorem writeWindow_card (mod : ModuleDesc) (r : MemRange) :
    (writeWindow mod r).card = contrib mod r := by
  simp [writeWindow, Nat.card_Ico]

theorem writeWindow_subset_range (mod : ModuleDesc) (r : MemRange) :
    writeWindow mod r ⊆ Finset.range mod.size := by
  intro x hx
  simp only [writeWindow, Finset.mem_Ico] at hx
  simp only [Finset.mem_range]
  by_cases h : mod.base ≤ r.va ∧ r.va < mod.base + mod.size
  · simp only [contrib, if_pos h] at hx
    omega
  · simp only [contrib, if_neg h] at hx
    omega

theorem sum_contrib_le (mod : ModuleDesc) (l : List MemRange) :
    ∀ S : Finset Nat, (∀ r ∈ l, writeWindow mod r ⊆ S) →
      l.Pairwise (fun a b => Disjoint (writeWindow mod a) (writeWindow mod b)) →
      (l.map (contrib mod)).sum ≤ S.card := by
  induction l with
  | nil => intro S _ _; simp
  | cons r rest ih =>
    intro S hsub hpair
    rw [List.map_cons, List.sum_cons]
    obtain ⟨hd, htl⟩ := List.pairwise_cons.mp hpair
    have hrS : writeWindow mod r ⊆ S := hsub r (List.mem_cons_self _ _)
    have hsub' : ∀ b ∈ rest, writeWindow mod b ⊆ S \ writeWindow mod r := by
      intro b hb x hx
      rw [Finset.mem_sdiff]
      exact ⟨hsub b (List.mem_cons_of_mem _ hb) hx,
        fun hxr => Finset.disjoint_left.mp (hd b hb) hxr hx⟩
    have hrec := ih (S \ writeWindow mod r) hsub' htl
    rw [Finset.card_sdiff hrS] at hrec
    have hcard : (writeWindow mod r).card ≤ S.card := Finset.card_le_card hrS
    rw [← writeWindow_card mod r]
    omega

/-- C3 (counterexample): two duplicate ranges each cover the whole 72-byte
module; the module validates and is emitted, and the reported
`bytes_filled` is 144, exceeding the module's declared size 72. -/
theorem C3_counterexample :
    ((extractModuleFromRanges dumpPE ⟨0, 72⟩ [⟨0, 72, 0⟩, ⟨0, 72, 0⟩]).map
      (fun m => m.bytes_filled)) = some 144 ∧ ¬(144 ≤ (72 : Nat)) := by
  exact ⟨by decide, by decide⟩

/-- C3 (amended): `bytes_filled ≤ module.size` holds for every emitted
module whose selected ranges have pairwise-disjoint write windows;
overlapping or duplicate ranges are counted multiply and can exceed it. -/
theorem C3_bytes_filled_le (dump : Nat → Nat) (mod : ModuleDesc)
    (ranges : List MemRange) (m : ModuleResult)
    (hm : extractModuleFromRanges dump mod ranges = some m)
    (hdisj : (sortByVa (selectedRanges mod ranges)).Pairwise
      (fun a b => Disjoint (writeWindow mod a) (writeWindow mod b))) :
    m.bytes_filled ≤ mod.size := by
  obtain ⟨-, hbf, -⟩ := extractModule_inv dump mod ranges m hm
  rw [hbf]
  unfold extractFill
  rw [foldl_fill_snd]
  have hle := sum_contrib_le mod (sortByVa (selectedRanges mod ranges))
    (Finset.range mod.size) (fun r _ => writeWindow_subset_range mod r) hdisj
  simpa [Finset.card_range] using hle

/-- C3 (witness). -/
theorem C3_witness :
    extractModuleFromRanges dumpPE ⟨0, 72⟩ [⟨0, 72, 0⟩] =
      some ⟨fullPE72, 72, 0⟩ ∧
    (sortByVa (selectedRanges ⟨0, 72⟩ [⟨0, 72, 0⟩])).Pairwise
      (fun a b => Disjoint (writeWindow ⟨0, 72⟩ a) (writeWindow ⟨0, 72⟩ b)) ∧
    (⟨fullPE72, 72, 0⟩ : ModuleResult).bytes_filled ≤ (⟨0, 72⟩ : ModuleDesc).size := by
  refine ⟨by decide, by decide, ?_⟩
  exact C3_bytes_filled_le dumpPE ⟨0, 72⟩ [⟨0, 72, 0⟩] ⟨fullPE72, 72, 0⟩
    (by decide) (by decide)

/-- C4: every emitted module buffer passes PE validation (`MZ` at 0–1, the
`u32` at 0x3C designating in-buffer bytes equal to `PE\0\0`), and a buffer
failing the MZ check, whose `pe_offset` reaches past the buffer, or whose
PE-signature bytes differ, is rejected. -/
theorem C4_pe_validation :
    (∀ buf pe, validatePE buf = some pe →
      buf.getD 0 0 = 77 ∧ buf.getD 1 0 = 90 ∧ pe + 4 < buf.length ∧
      buf.getD pe 0 = 80 ∧ buf.getD (pe + 1) 0 = 69 ∧
      buf.getD (pe + 2) 0 = 0 ∧ buf.getD (pe + 3) 0 = 0) ∧
    (∀ buf, (¬(buf.getD 0 0 = 77 ∧ buf.getD 1 0 = 90) ∨
        buf.length ≤ readU32 buf 60 + 4 ∨
        ¬(buf.getD (readU32 buf 60) 0 = 80 ∧ buf.getD (readU32 buf 60 + 1) 0 = 69 ∧
          buf.getD (readU32 buf 60 + 2) 0 = 0 ∧ buf.getD (readU32 buf 60 + 3) 0 = 0)) →
      validatePE buf = none) ∧
    (∀ dump mod ranges m, extractModuleFromRanges dump mod ranges = some m →
      (validatePE m.data).isSome = true) := by
  refine ⟨?_, ?_, ?_⟩
  · intro buf pe h
    obtain ⟨ha, hb, -, hpe, hub, hs1, hs2, hs3, hs4⟩ :=
      (validatePE_eq_some buf pe).mp h
    subst hpe
    exact ⟨ha, hb, by omega, hs1, hs2, hs3, hs4⟩
  · intro buf h
    cases hv : validatePE buf with
    | none => rfl
    | some pe =>
      exfalso
      obtain ⟨ha, hb, hlen, -, hub, hs1, hs2, hs3, hs4⟩ :=
        (validatePE_eq_some buf pe).mp hv
      rcases h with h | h | h
      · exact h ⟨ha, hb⟩
      · omega
      · exact h ⟨hs1, hs2, hs3, hs4⟩
  · intro dump mod ranges m hm
    obtain ⟨hdata, -, hsome⟩ := extractModule_inv dump mod ranges m hm
    rw [hdata]
    exact hsome

/-- C4 (witness). -/
theorem C4_witness :
    (fullPE72.getD 0 0 = 77 ∧ fullPE72.getD 1 0 = 90 ∧ 64 + 4 < fullPE72.length ∧
      fullPE72.getD 64 0 = 80 ∧ fullPE72.getD 65 0 = 69 ∧
      fullPE72.getD 66 0 = 0 ∧ fullPE72.getD 67 0 = 0) ∧
    validatePE [] = none ∧
    (validatePE (⟨fullPE72, 72, 0⟩ : ModuleResult).data).isSome = true := by
  refine ⟨C4_pe_validation.1 fullPE72 64 (by decide),
    C4_pe_validation.2.1 [] (Or.inl (by decide)),
    C4_pe_validation.2.2 dumpPE ⟨0, 72⟩ [⟨0, 72, 0⟩] ⟨fullPE72, 72, 0⟩ (by decide)⟩

/-- C10: every emitted module buffer has length exactly the module's
declared size, and any byte not written by any memory range's fill step
remains zero (the buffer is zero-initialised). -/
theorem C10_emitted_size_and_zero_fill (dump : Nat → Nat) (mod : ModuleDesc)
    (ranges : List MemRange) (m : ModuleResult)
    (hm : extractModuleFromRanges dump mod ranges = some m) :
    m.data.length = mod.size ∧
    ∀ j < mod.size, (∀ r ∈ ranges, ¬ coversIdx mod r j) → m.data.getD j 0 = 0 := by
  obtain ⟨hdata, -, -⟩ := extractModule_inv dump mod ranges m hm
  refine ⟨by rw [hdata]; exact extractFill_length dump mod ranges, ?_⟩
  intro j hj hnc
  rw [hdata]
  unfold extractFill
  rw [foldl_fill_getD_nocover dump mod _ _ j (by simp) ?_]
  · simp [List.getD_eq_getElem?_getD, List.getElem?_replicate, hj]
  · intro r hr
    exact hnc r (List.mem_of_mem_filter ((mem_sortByVa r _).mp hr))

/-- C10 (witness): one range covers bytes 0–67 of a 72-byte module; the
emitted buffer has length 72 and byte 70 (covered by no range) is zero. -/
theorem C10_witness :
    extractModuleFromRanges dumpPE ⟨0, 72⟩ [⟨0, 68, 0⟩] =
      some ⟨partPE72, 68, 0⟩ ∧
    (⟨partPE72, 68, 0⟩ : ModuleResult).data.length = 72 ∧
    (70 < 72 ∧ (∀ r ∈ [(⟨0, 68, 0⟩ : MemRange)], ¬ coversIdx ⟨0, 72⟩ r 70) ∧
      (⟨partPE72, 68, 0⟩ : ModuleResult).data.getD 70 0 = 0) := by
  have h := C10_emitted_size_and_zero_fill dumpPE ⟨0, 72⟩ [⟨0, 68, 0⟩]
    ⟨partPE72, 68, 0⟩ (by decide)
  exact ⟨by decide, h.1, by decide, by decide, h.2 70 (by decide) (by decide)⟩

theorem assignOffsets_length (base : Nat) (l : List (Nat × Nat)) :
    (assignOffsets base l).length = l.length := by
  induction l generalizing base with
  | nil => rfl
  | cons p rest ih =>
    simp [assignOffsets, ih]

/-- C7: the file offset of the `i`-th parsed memory range is `base_rva`
plus the sum of the sizes of ranges `0` through `i − 1`. -/
theorem C7_file_offset (base : Nat) (l : List (Nat × Nat)) (i : Nat)
    (h : i < l.length) :
    ((assignOffsets base l).getD i ⟨0, 0, 0⟩).file_offset =
      base + ((l.take i).map Prod.snd).sum := by
  induction l generalizing base i with
  | nil => simp at h
  | cons p rest ih =>
    cases i with
    | zero => simp [assignOffsets]
    | succ i =>
      have hrec := ih (base + p.2) i (by simpa using h)
      simp only [assignOffsets, List.getD_cons_succ, List.take_succ_cons,
        List.map_cons, List.sum_cons]
      rw [hrec]
      omega

/-- C7 (witness). -/
theorem C7_witness :
    2 < ([((0 : Nat), (3 : Nat)), (1, 4), (2, 9)] : List (Nat × Nat)).length ∧
    ((assignOffsets 5 [(0, 3), (1, 4), (2, 9)]).getD 2 ⟨0, 0, 0⟩).file_offset =
      5 + (([((0 : Nat), (3 : Nat)), (1, 4), (2, 9)].take 2).map Prod.snd).sum := by
  exact ⟨by decide, C7_file_offset 5 [(0, 3), (1, 4), (2, 9)] 2 (by decide)⟩

/-- Little-endian `u32` read from the dump (`struct.unpack("<I", f.read(4))`). -/
def readU32D (d : Nat → Nat) (off : Nat) : Nat :=
  d off + 256 * d (off + 1) + 65536 * d (off + 2) + 16777216 * d (off + 3)

/-- Little-endian `u64` read from the dump (`struct.unpack("<Q", f.read(8))`). -/
def readU64D (d : Nat → Nat) (off : Nat) : Nat :=
  readU32D d off + 4294967296 * readU32D d (off + 4)

/-- Embedding of `_parse_header` (lines 32–41): require magic `MDMP` (bytes 77, 68, 77, 80),
skip the version word, return `(num_streams, stream_dir_rva)`; a wrong magic
raises `ValueError`. -/
def parseHeader (d : Nat → Nat) : Except String (Nat × Nat) :=
  if d 0 = 77 ∧ d 1 = 68 ∧ d 2 = 77 ∧ d 3 = 80 then
    Except.ok (readU32D d 8, readU32D d 12)
  else Except.error "Not a valid minidump file"

/-- Embedding of `_find_streams` (lines 43–59): walk `num_streams` 12-byte directory
entries at `stream_dir_rva`, keeping the module-list stream (type 4) and the
memory64 stream (type 9) as `(rva, size)`; a later entry of the same type
overwrites an earlier one. -/
def findStreams (d : Nat → Nat) (dirRva numStreams : Nat) :
    Option (Nat × Nat) × Option (Nat × Nat) :=
  (List.range numStreams).foldl
    (fun acc i =>
      let entry := dirRva + 12 * i
      if readU32D d entry = 4 then (some (readU32D d (entry + 8), readU32D d (entry + 4)), acc.2)
      else if readU32D d entry = 9 then (acc.1, some (readU32D d (entry + 8), readU32D d (entry + 4)))
      else acc)
    (none, none)

/-- Embedding of `_parse_modules` (lines 61–85): `u32 module_count` then 108-byte records,
of which the model keeps `u64 base_va` and `u32 size` (checksum, timestamp,
name RVA and the UTF-16 name only affect logging and output naming). -/
def parseModulesList (d : Nat → Nat) (rva : Nat) : List ModuleDesc :=
  (List.range (readU32D d rva)).map (fun i =>
    ⟨readU64D d (rva + 4 + 108 * i), readU32D d (rva + 4 + 108 * i + 8)⟩)

/-- Embedding of `_parse_memory_ranges` (lines 87–105): `u64 range_count, u64 base_rva`,
then `(u64 va, u64 size)` pairs; file offsets assigned cumulatively from
`base_rva`. -/
def parseMemoryRanges (d : Nat → Nat) (rva : Nat) : List MemRange :=
  assignOffsets (readU64D d (rva + 8))
    ((List.range (readU64D d rva)).map (fun i =>
      (readU64D d (rva + 16 + 16 * i), readU64D d (rva + 16 + 16 * i + 8))))

/-- The body of `extract_modules` (lines 120–143): parse the header, locate
the streams, return `[]` when no module stream exists, else extract each
module, dropping the ones that fail (their per-module exceptions are caught
and logged).  An error value models an exception escaping the body. -/
def extractModulesCore (d : Nat → Nat) : Except String (List ModuleResult) := do
  let (numStreams, dirRva) ← parseHeader d
  match findStreams d dirRva numStreams with
  | (none, _) => return []
  | (some (mrva, _), memStream) =>
    let ranges := match memStream with
      | some (rrva, _) => parseMemoryRanges d rrva
      | none => []
    return (parseModulesList d mrva).foldl
      (fun acc mod =>
        match extractModuleFromRanges d mod ranges with
        | some m => acc ++ [m]
        | none => acc) []

/-- Embedding of `extract_modules` (lines 107–150): the whole body runs inside
`try ... except`, so any failure yields the empty module list instead of
propagating. -/
def extract_modules (d : Nat → Nat) : List ModuleResult :=
  match extractModulesCore d with
  | Except.ok l => l
  | Except.error _ => []

/-- The per-dump batch loop of `main` (lines 129–143): each dump is
processed independently and a failing dump does not stop the loop. -/
def processBatch (dumps : List (Nat → Nat)) : List (List ModuleResult) :=
  dumps.map extract_modules

/-- C8: a dump whose first four bytes are not `MDMP` raises inside
`_parse_header`; the exception is caught in `extract_modules`, which
returns the empty list, and the batch loop processes the remaining dumps
unchanged. -/
theorem C8_malformed_container (d : Nat → Nat) (rest : List (Nat → Nat))
    (h : ¬(d 0 = 77 ∧ d 1 = 68 ∧ d 2 = 77 ∧ d 3 = 80)) :
    extractModulesCore d = Except.error "Not a valid minidump file" ∧
    extract_modules d = [] ∧
    processBatch (d :: rest) = [] :: processBatch rest := by
  have hph : parseHeader d = Except.error "Not a valid minidump file" := by
    unfold parseHeader
    rw [if_neg h]
  have hcore : extractModulesCore d = Except.error "Not a valid minidump file" := by
    unfold extractModulesCore
    rw [hph]
    rfl
  have hex : extract_modules d = [] := by
    unfold extract_modules
    rw [hcore]
  exact ⟨hcore, hex, by simp [processBatch, hex]⟩

/-- C8 (witness). -/
theorem C8_witness :
    ¬((fun _ => 0 : Nat → Nat) 0 = 77 ∧ (fun _ => 0 : Nat → Nat) 1 = 68 ∧
      (fun _ => 0 : Nat → Nat) 2 = 77 ∧ (fun _ => 0 : Nat → Nat) 3 = 80) ∧
    extract_modules (fun _ => 0) = [] ∧
    processBatch [fun _ => 0] = [[]] := by
  have h := C8_malformed_container (fun _ => 0) [] (by intro hc; exact absurd hc.1 (by decide))
  exact ⟨by intro hc; exact absurd hc.1 (by decide), h.2.1, h.2.2⟩

/-- Pattern-analysis outcome of `_analyze_region_content`
(`analyze_coverage.py` lines 249–289). -/
structure RegionPattern where
  is_zeros : Bool
  is_repeating : Bool
  pattern_byte : Option Nat
deriving Repr, DecidableEq

/-- Model of `f.read(n)` after seeking to `start`: the next `n` dump bytes. -/
def sampleBytes (d : Nat → Nat) (start n : Nat) : List Nat :=
  (List.range n).map (fun i => d (start + i))

/-- The loop `for i in range(4, len(sample) - 3, 4)` comparing each aligned
4-byte window with `sample[:4]`; the fuel argument bounds the iteration
count (the call site passes `sample.length`, more than enough). -/
def checkRep4 (sample pattern : List Nat) : Nat → Nat → Bool
  | 0, _ => true
  | fuel + 1, i =>
    if i < sample.length - 3 then
      if (sample.drop i).take 4 = pattern then checkRep4 sample pattern fuel (i + 4)
      else false
    else true

/-- Embedding of `_analyze_region_content` (lines 249–289) on the region
`[start, start + size)`: sample the first `min 64 size` bytes; with fewer
than 4 sampled bytes no pattern is detected; all-zero samples are confirmed
against a `min 4096 size` sample; a constant non-zero sample sets
`is_repeating` and `pattern_byte`; a repeating 4-byte pattern sets only
`is_repeating`. -/
def analyzeRegionContent (d : Nat → Nat) (start size : Nat) : RegionPattern :=
  let sample := sampleBytes d start (min 64 size)
  if 4 ≤ sample.length then
    if sample.all (fun b => b = 0) then
      if min 64 size < size then
        if (sampleBytes d start (min 4096 size)).all (fun b => b = 0) then
          ⟨true, false, some 0⟩
        else ⟨false, false, none⟩
      else ⟨true, false, some 0⟩
    else if sample.all (fun b => b = sample.headD 0) then
      ⟨false, true, some (sample.headD 0)⟩
    else if 8 ≤ sample.length then
      if checkRep4 sample (sample.take 4) sample.length 4 then ⟨false, true, none⟩
      else ⟨false, false, none⟩
    else ⟨false, false, none⟩
  else ⟨false, false, none⟩

theorem sampleBytes_const (d : Nat → Nat) (start n b : Nat)
    (h : ∀ i < n, d (start + i) = b) :
    sampleBytes d start n = List.replicate n b := by
  unfold sampleBytes
  induction n with
  | zero => rfl
  | succ k ih =>
    rw [List.range_succ, List.map_append, ih (fun i hi => h i (by omega))]
    simp only [List.map_cons, List.map_nil, h k (by omega)]
    rw [List.replicate_succ']

/-- C6 (counterexample): a gap region consisting of a single copy of the
non-zero byte 255 (`N = 1`) is sampled with fewer than 4 bytes, so no
pattern check runs and the region is not classified `repeat_byte`. -/
theorem C6_counterexample :
    (∀ i < 1, (fun _ => 255 : Nat → Nat) (0 + i) = 255) ∧ (255 : Nat) ≠ 0 ∧
    (analyzeRegionContent (fun _ => 255) 0 1).is_repeating = false ∧
    (analyzeRegionContent (fun _ => 255) 0 1).pattern_byte = none := by
  exact ⟨by decide, by decide, by decide, by decide⟩

/-- C6 (amended): a gap of `N ≥ 4` copies of a non-zero byte `b` is
classified as a byte repeat: `is_repeating = true` and `pattern_byte = b`
(for `N < 4` the sample is too short and no pattern is detected). -/
theorem C6_repeat_byte (d : Nat → Nat) (start N b : Nat)
    (hb : b ≠ 0) (hN : 4 ≤ N) (hreg : ∀ i < N, d (start + i) = b) :
    analyzeRegionContent d start N = ⟨false, true, some b⟩ := by
  have hm : 4 ≤ min 64 N := by omega
  have hsample : sampleBytes d start (min 64 N) = List.replicate (min 64 N) b :=
    sampleBytes_const d start _ b (fun i hi => hreg i (by omega))
  unfold analyzeRegionContent
  simp only [hsample]
  have hlen : (List.replicate (min 64 N) b).length = min 64 N := by simp
  rw [if_pos (by rw [hlen]; omega)]
  have hnz : (List.replicate (min 64 N) b).all (fun x => decide (x = 0)) = false := by
    rw [Bool.eq_false_iff]
    intro hall
    rw [List.all_eq_true] at hall
    have hbmem : b ∈ List.replicate (min 64 N) b := by
      rw [List.mem_replicate]
      omega
    exact hb (by simpa using hall b hbmem)
  rw [hnz]
  simp only [Bool.false_eq_true, if_false]
  have hhead : (List.replicate (min 64 N) b).headD 0 = b := by
    obtain ⟨k, hk⟩ : ∃ k, min 64 N = k + 1 := ⟨min 64 N - 1, by omega⟩
    rw [hk, List.replicate_succ]
    rfl
  have hrep : (List.replicate (min 64 N) b).all
      (fun x => decide (x = (List.replicate (min 64 N) b).headD 0)) = true := by
    rw [List.all_eq_true]
    intro x hx
    rw [List.eq_of_mem_replicate hx, hhead]
    simp
  rw [hrep]
  simp only [if_true, hhead]

/-- C6 (witness). -/
theorem C6_witness :
    (9 : Nat) ≠ 0 ∧ (4 : Nat) ≤ 5 ∧ (∀ i < 5, (fun _ => 9 : Nat → Nat) (0 + i) = 9) ∧
    analyzeRegionContent (fun _ => 9) 0 5 = ⟨false, true, some 9⟩ := by
  exact ⟨by decide, by decide, by decide,
    C6_repeat_byte (fun _ => 9) 0 5 9 (by decide) (by decide) (by decide)⟩

/-- Strict lexicographic order on interval pairs, used for the stable
model of Python's tuple sort (`coverage_map.sort()`). -/
def lexLT (a b : Nat × Nat) : Bool :=
  decide (a.1 < b.1) || (decide (a.1 = b.1) && decide (a.2 < b.2))

/-- Stable insertion for the lexicographic sort. -/
def insertLex (p : Nat × Nat) : List (Nat × Nat) → List (Nat × Nat)
  | [] => [p]
  | q :: qs => if lexLT q p then q :: insertLex p qs else p :: q :: qs

/-- Stable model of `coverage_map.sort()`. -/
def sortLex : List (Nat × Nat) → List (Nat × Nat)
  | [] => []
  | p :: ps => insertLex p (sortLex ps)

/-- The merge loop of `_analyze_unknown_regions` / `_calculate_statistics`
(lines 217–222 and 300–306) with the current accumulated interval `(s, e)`
held apart: `start <= merged[-1][1]` extends the last interval to
`max(merged[-1][1], end)`, otherwise the interval is emitted and a new one
starts. -/
def mergeGo (s e : Nat) : List (Nat × Nat) → List (Nat × Nat)
  | [] => [(s, e)]
  | (s2, e2) :: rest =>
    if s2 ≤ e then mergeGo s (max e e2) rest
    else (s, e) :: mergeGo s2 e2 rest

/-- Merging a sorted interval list (empty input yields no intervals). -/
def mergeSorted : List (Nat × Nat) → List (Nat × Nat)
  | [] => []
  | (s, e) :: rest => mergeGo s e rest

/-- The merged coverage intervals of a manifest: each entry
`(offset, size_in_dump)` is projected to `(offset, offset + size_in_dump)`,
sorted, and merged. -/
def mergedIntervals (entries : List (Nat × Nat)) : List (Nat × Nat) :=
  mergeSorted (sortLex (entries.map (fun p => (p.1, p.1 + p.2))))

/-- The gap loop of `_analyze_unknown_regions` (lines 224–236): a gap
before each merged interval whose start exceeds `prev_end`, advancing
`prev_end` by `max`, plus a final gap up to `dump_size`. -/
def gapsFrom (D : Nat) (prev : Nat) : List (Nat × Nat) → List (Nat × Nat)
  | [] => if prev < D then [(prev, D)] else []
  | (s, e) :: rest =>
    (if prev < s then [(prev, s)] else []) ++ gapsFrom D (max prev e) rest

/-- The unknown regions computed for a manifest. -/
def gapsOf (entries : List (Nat × Nat)) (D : Nat) : List (Nat × Nat) :=
  gapsFrom D 0 (mergedIntervals entries)

/-- Embedding of `report.identified_bytes` (line 310): total width of the merged
intervals. -/
def identifiedBytes (entries : List (Nat × Nat)) : Nat :=
  ((mergedIntervals entries).map (fun p => p.2 - p.1)).sum

/-- Embedding of `report.unknown_bytes`: set to the total gap width at line 245, then
overwritten with `dump_size - identified_bytes` at line 311 whenever
`dump_size > 0`. -/
def unknownBytes (entries : List (Nat × Nat)) (D : Nat) : Int :=
  if 0 < D then (D : Int) - (identifiedBytes entries : Int)
  else ((gapsOf entries D).map (fun p => (p.2 : Int) - (p.1 : Int))).sum

/-- The set of dump offsets covered by a list of `[start, end)` intervals. -/
def unionIntervals (l : List (Nat × Nat)) : Set Nat :=
  { x | ∃ p ∈ l, p.1 ≤ x ∧ x < p.2 }

theorem insertLex_perm (p : Nat × Nat) (l : List (Nat × Nat)) :
    List.Perm (insertLex p l) (p :: l) := by
  induction l with
  | nil => exact List.Perm.refl _
  | cons q qs ih =>
    simp only [insertLex]
    by_cases h : lexLT q p = true
    · rw [if_pos h]
      exact (ih.cons q).trans (List.Perm.swap p q qs)
    · rw [if_neg h]

theorem sortLex_perm (l : List (Nat × Nat)) : List.Perm (sortLex l) l := by
  induction l with
  | nil => exact List.Perm.refl _
  | cons p ps ih =>
    exact (insertLex_perm p (sortLex ps)).trans (ih.cons p)

theorem mem_sortLex (p : Nat × Nat) (l : List (Nat × Nat)) :
    p ∈ sortLex l ↔ p ∈ l :=
  (sortLex_perm l).mem_iff

theorem mergeGo_mem_lb (l : List (Nat × Nat)) :
    ∀ s e, s ≤ e → (∀ p ∈ l, p.1 ≤ p.2) →
      ∀ q ∈ mergeGo s e l, s ≤ q.1 ∧ q.1 ≤ q.2 := by
  induction l with
  | nil =>
    intro s e hse _ q hq
    simp only [mergeGo, List.mem_singleton] at hq
    subst hq
    exact ⟨le_refl _, hse⟩
  | cons p rest ih =>
    intro s e hse hall q hq
    obtain ⟨s2, e2⟩ := p
    have hp : s2 ≤ e2 := hall (s2, e2) (List.mem_cons_self _ _)
    have hall2 : ∀ p ∈ rest, p.1 ≤ p.2 :=
      fun p hp2 => hall p (List.mem_cons_of_mem _ hp2)
    simp only [mergeGo] at hq
    by_cases h : s2 ≤ e
    · rw [if_pos h] at hq
      exact ih s (max e e2) (le_trans hse (le_max_left _ _)) hall2 q hq
    · rw [if_neg h] at hq
      rcases List.mem_cons.mp hq with hq | hq
      · subst hq
        exact ⟨le_refl _, hse⟩
      · have := ih s2 e2 hp hall2 q hq
        exact ⟨by omega, this.2⟩

theorem mergeGo_mem_ub (D : Nat) (l : List (Nat × Nat)) :
    ∀ s e, e ≤ D → (∀ p ∈ l, p.2 ≤ D) → ∀ q ∈ mergeGo s e l, q.2 ≤ D := by
  induction l with
  | nil =>
    intro s e heD _ q hq
    simp only [mergeGo, List.mem_singleton] at hq
    subst hq
    exact heD
  | cons p rest ih =>
    intro s e heD hall q hq
    obtain ⟨s2, e2⟩ := p
    have hp : e2 ≤ D := hall (s2, e2) (List.mem_cons_self _ _)
    have hall2 : ∀ p ∈ rest, p.2 ≤ D :=
      fun p hp2 => hall p (List.mem_cons_of_mem _ hp2)
    simp only [mergeGo] at hq
    by_cases h : s2 ≤ e
    · rw [if_pos h] at hq
      exact ih s (max e e2) (by omega) hall2 q hq
    · rw [if_neg h] at hq
      rcases List.mem_cons.mp hq with hq | hq
      · subst hq
        exact heD
      · exact ih s2 e2 hp hall2 q hq

theorem mergeGo_pairwise (l : List (Nat × Nat)) :
    ∀ s e, s ≤ e → (∀ p ∈ l, p.1 ≤ p.2) →
      (mergeGo s e l).Pairwise (fun a b => a.2 < b.1) := by
  induction l with
  | nil =>
    intro s e _ _
    simp [mergeGo]
  | cons p rest ih =>
    intro s e hse hall
    obtain ⟨s2, e2⟩ := p
    have hp : s2 ≤ e2 := hall (s2, e2) (List.mem_cons_self _ _)
    have hall2 : ∀ p ∈ rest, p.1 ≤ p.2 :=
      fun p hp2 => hall p (List.mem_cons_of_mem _ hp2)
    simp only [mergeGo]
    by_cases h : s2 ≤ e
    · rw [if_pos h]
      exact ih s (max e e2) (le_trans hse (le_max_left _ _)) hall2
    · rw [if_neg h]
      refine List.Pairwise.cons ?_ (ih s2 e2 hp hall2)
      intro q hq
      have := mergeGo_mem_lb rest s2 e2 hp hall2 q hq
      omega

theorem mergedIntervals_mem (entries : List (Nat × Nat)) (D : Nat)
    (h : ∀ p ∈ entries, p.1 + p.2 ≤ D) :
    ∀ q ∈ mergedIntervals entries, q.1 ≤ q.2 ∧ q.2 ≤ D := by
  have hproj : ∀ p ∈ sortLex (entries.map (fun p => (p.1, p.1 + p.2))),
      p.1 ≤ p.2 ∧ p.2 ≤ D := by
    intro p hp
    rw [mem_sortLex] at hp
    obtain ⟨q, hq, rfl⟩ := List.mem_map.mp hp
    exact ⟨Nat.le_add_right _ _, h q hq⟩
  unfold mergedIntervals
  intro q hq
  rcases hL : sortLex (entries.map (fun p => (p.1, p.1 + p.2))) with
    - | ⟨⟨s, e⟩, tl⟩
  · rw [hL] at hq
    simp [mergeSorted] at hq
  · rw [hL] at hq hproj
    simp only [mergeSorted] at hq
    have hd := hproj (s, e) (List.mem_cons_self _ _)
    have htl1 : ∀ p ∈ tl, p.1 ≤ p.2 :=
      fun p hp => (hproj p (List.mem_cons_of_mem _ hp)).1
    have htl2 : ∀ p ∈ tl, p.2 ≤ D :=
      fun p hp => (hproj p (List.mem_cons_of_mem _ hp)).2
    exact ⟨(mergeGo_mem_lb tl s e hd.1 htl1 q hq).2,
      mergeGo_mem_ub D tl s e hd.2 htl2 q hq⟩

theorem mergedIntervals_sep (entries : List (Nat × Nat)) :
    (mergedIntervals entries).Pairwise (fun a b => a.2 < b.1) := by
  have hproj : ∀ p ∈ sortLex (entries.map (fun p => (p.1, p.1 + p.2))),
      p.1 ≤ p.2 := by
    intro p hp
    rw [mem_sortLex] at hp
    obtain ⟨q, hq, rfl⟩ := List.mem_map.mp hp
    exact Nat.le_add_right _ _
  unfold mergedIntervals
  rcases hL : sortLex (entries.map (fun p => (p.1, p.1 + p.2))) with
    - | ⟨⟨s, e⟩, tl⟩
  · rw [hL]
    simp [mergeSorted]
  · rw [hL] at hproj ⊢
    simp only [mergeSorted]
    exact mergeGo_pairwise tl s e (hproj (s, e) (List.mem_cons_self _ _))
      (fun p hp => hproj p (List.mem_cons_of_mem _ hp))

theorem gapsFrom_nil_of_ge (D : Nat) (l : List (Nat × Nat)) :
    ∀ prev, D ≤ prev → (∀ p ∈ l, p.1 ≤ p.2 ∧ p.2 ≤ D) →
      gapsFrom D prev l = [] := by
  induction l with
  | nil =>
    intro prev hprev _
    simp only [gapsFrom]
    rw [if_neg (by omega)]
  | cons q rest ih =>
    intro prev hprev hall
    obtain ⟨s, e⟩ := q
    have hq := hall (s, e) (List.mem_cons_self _ _)
    simp only [gapsFrom]
    rw [if_neg (by omega), ih (max prev e) (by omega)
      (fun p hp => hall p (List.mem_cons_of_mem _ hp))]
    rfl

theorem gapsFrom_cover (D : Nat) (l : List (Nat × Nat)) :
    ∀ prev x, prev ≤ D → (∀ p ∈ l, p.1 ≤ p.2 ∧ p.2 ≤ D) →
      (x < D ↔ x < prev ∨ (∃ p ∈ l, p.1 ≤ x ∧ x < p.2) ∨
        (∃ p ∈ gapsFrom D prev l, p.1 ≤ x ∧ x < p.2)) := by
  induction l with
  | nil =>
    intro prev x hprev _
    simp only [gapsFrom, List.not_mem_nil, false_and, exists_false, false_or]
    by_cases h : prev < D
    · rw [if_pos h]
      simp only [List.mem_singleton, exists_eq_left]
      omega
    · rw [if_neg h]
      simp only [List.not_mem_nil, false_and, exists_false, or_false]
      omega
  | cons q rest ih =>
    intro prev x hprev hall
    obtain ⟨s, e⟩ := q
    obtain ⟨hse, heD⟩ := hall (s, e) (List.mem_cons_self _ _)
    have hall2 : ∀ p ∈ rest, p.1 ≤ p.2 ∧ p.2 ≤ D :=
      fun p hp => hall p (List.mem_cons_of_mem _ hp)
    have hIH := ih (max prev e) x (by omega) hall2
    simp only [gapsFrom, List.mem_append, List.mem_cons]
    rw [hIH]
    by_cases hps : prev < s
    · rw [if_pos hps]
      simp only [List.mem_singleton]
      constructor
      · rintro (hx | ⟨p, hp, hpx⟩ | ⟨p, hp, hpx⟩)
        · by_cases h1 : x < prev
          · exact Or.inl h1
          by_cases h2 : x < s
          · exact Or.inr (Or.inr ⟨(prev, s), Or.inl rfl, by omega⟩)
          · exact Or.inr (Or.inl ⟨(s, e), Or.inl rfl, by omega⟩)
        · exact Or.inr (Or.inl ⟨p, Or.inr hp, hpx⟩)
        · exact Or.inr (Or.inr ⟨p, Or.inr hp, hpx⟩)
      · rintro (hx | ⟨p, hp | hp, hpx⟩ | ⟨p, hp | hp, hpx⟩)
        · exact Or.inl (by omega)
        · subst hp
          exact Or.inl (by simp only at hpx; omega)
        · exact Or.inr (Or.inl ⟨p, hp, hpx⟩)
        · subst hp
          exact Or.inl (by simp only at hpx; omega)
        · exact Or.inr (Or.inr ⟨p, hp, hpx⟩)
    · rw [if_neg hps]
      simp only [List.not_mem_nil, false_or]
      constructor
      · rintro (hx | ⟨p, hp, hpx⟩ | ⟨p, hp, hpx⟩)
        · by_cases h1 : x < prev
          · exact Or.inl h1
          · exact Or.inr (Or.inl ⟨(s, e), Or.inl rfl, by omega⟩)
        · exact Or.inr (Or.inl ⟨p, Or.inr hp, hpx⟩)
        · exact Or.inr (Or.inr ⟨p, hp, hpx⟩)
      · rintro (hx | ⟨p, hp | hp, hpx⟩ | ⟨p, hp, hpx⟩)
        · exact Or.inl (by omega)
        · subst hp
          exact Or.inl (by simp only at hpx; omega)
        · exact Or.inr (Or.inl ⟨p, hp, hpx⟩)
        · exact Or.inr (Or.inr ⟨p, hp, hpx⟩)

/-- C5: for every manifest whose entries fit in the dump,
`identified_bytes + unknown_bytes = dump_size`, the merged coverage
intervals are pairwise disjoint, and their union together with the computed
gaps is exactly `[0, dump_size)`. -/
theorem C5_coverage_identity (entries : List (Nat × Nat)) (D : Nat)
    (h : ∀ p ∈ entries, p.1 + p.2 ≤ D) :
    (identifiedBytes entries : Int) + unknownBytes entries D = (D : Int) ∧
    (mergedIntervals entries).Pairwise
      (fun a b => ∀ x : Nat, ¬(a.1 ≤ x ∧ x < a.2 ∧ b.1 ≤ x ∧ x < b.2)) ∧
    unionIntervals (mergedIntervals entries) ∪ unionIntervals (gapsOf entries D) =
      Set.Ico 0 D := by
  have hmem := mergedIntervals_mem entries D h
  refine ⟨?_, ?_, ?_⟩
  · by_cases hD : 0 < D
    · rw [unknownBytes, if_pos hD]
      ring
    · have hD0 : D = 0 := by omega
      subst hD0
      rw [unknownBytes, if_neg (by omega)]
      have hid : identifiedBytes entries = 0 := by
        unfold identifiedBytes
        apply List.sum_eq_zero
        intro x hx
        obtain ⟨q, hq, rfl⟩ := List.mem_map.mp hx
        have := hmem q hq
        omega
      have hgaps : gapsOf entries 0 = [] :=
        gapsFrom_nil_of_ge 0 _ 0 (le_refl 0) hmem
      rw [hid, hgaps]
      simp
  · exact (mergedIntervals_sep entries).imp (fun hab x hx => by omega)
  · ext x
    simp only [Set.mem_union, Set.mem_Ico, unionIntervals, Set.mem_setOf_eq]
    have hcov := gapsFrom_cover D (mergedIntervals entries) 0 x (by omega) hmem
    unfold gapsOf
    constructor
    · rintro (hA | hB)
      · exact ⟨Nat.zero_le x, hcov.mpr (Or.inr (Or.inl hA))⟩
      · exact ⟨Nat.zero_le x, hcov.mpr (Or.inr (Or.inr hB))⟩
    · rintro ⟨-, hxD⟩
      rcases hcov.mp hxD with h0 | hA | hB
      · omega
      · exact Or.inl hA
      · exact Or.inr hB

/-- C5 (witness). -/
theorem C5_witness :
    (∀ p ∈ [((0 : Nat), (3 : Nat)), (2, 2)], p.1 + p.2 ≤ 10) ∧
    ((identifiedBytes [(0, 3), (2, 2)] : Int) +
        unknownBytes [(0, 3), (2, 2)] 10 = (10 : Int) ∧
      (mergedIntervals [(0, 3), (2, 2)]).Pairwise
        (fun a b => ∀ x : Nat, ¬(a.1 ≤ x ∧ x < a.2 ∧ b.1 ≤ x ∧ x < b.2)) ∧
      unionIntervals (mergedIntervals [(0, 3), (2, 2)]) ∪
          unionIntervals (gapsOf [(0, 3), (2, 2)] 10) = Set.Ico 0 10) := by
  exact ⟨by decide, C5_coverage_identity [(0, 3), (2, 2)] 10 (by decide)⟩

/-- Shannon entropy of a byte window (`compare_dumps.py` lines 14–20),
with real arithmetic standing in for Python floats: for empty data 0, else
`-Σ (c/L)·log₂(c/L)` over the byte values present in the window (a byte
value with count 0 contributes nothing; Python byte values lie below 256). -/
noncomputable def entropy (data : List Nat) : ℝ :=
  if data = [] then 0
  else -(∑ i ∈ Finset.range 256,
    if 0 < data.count i then
      ((data.count i : ℝ) / data.length) * Real.logb 2 ((data.count i : ℝ) / data.length)
    else 0)

/-- Embedding of `classify_entropy` (lines 23–34): the threshold ladder mapping an
entropy value to a label; the final branch labels compressed/encrypted. -/
noncomputable def classify_entropy (ent : ℝ) : String :=
  if ent < 1 then "zeros/padding"
  else if ent < 3 then "structured (text/strings)"
  else if ent < 5 then "structured binary"
  else if ent < 7 then "mixed/binary"
  else "compressed/encrypted"

/-- C9: a data window is classified compressed/encrypted (high-entropy)
exactly when its Shannon entropy is at least 7 bits per byte. -/
theorem C9_high_entropy_iff (w : List Nat) :
    classify_entropy (entropy w) = "compressed/encrypted" ↔ 7 ≤ entropy w := by
  unfold classify_entropy
  by_cases h1 : entropy w < 1
  · rw [if_pos h1]
    constructor
    · intro hs
      exact absurd hs (by decide)
    · intro h7
      linarith
  · rw [if_neg h1]
    by_cases h2 : entropy w < 3
    · rw [if_pos h2]
      constructor
      · intro hs
        exact absurd hs (by decide)
      · intro h7
        linarith
    · rw [if_neg h2]
      by_cases h3 : entropy w < 5
      · rw [if_pos h3]
        constructor
        · intro hs
          exact absurd hs (by decide)
        · intro h7
          linarith
      · rw [if_neg h3]
        by_cases h4 : entropy w < 7
        · rw [if_pos h4]
          constructor
          · intro hs
            exact absurd hs (by decide)
          · intro h7
            linarith
        · rw [if_neg h4]
          simp only [true_iff]
          linarith [not_lt.mp h4]

end FalloutUtils
